import Mathlib

/-!
# Verification of the highlight-aware layout engine and pan-scan engine

Shallow embedding of the core algorithms of the image/video generator:

* the highlight mask builder and the word-safe wrap engine of
  `src/imgeditor.py` (`build_highlight_mask`, `wrap_text_with_highlights`,
  `calculate_real_width`), shared verbatim by `video_generator.py` and
  `generate_image_api.py`;
* the per-frame time fraction and the pan/zoom affine parameters of
  `make_pan_scan_video` in `video_generator.py`;
* the line-box vertical stacking of `create_composite_image` /
  `create_text_overlay`;
* the overlay blender `apply_overlay` of `video_generator.py`.

Python strings are modelled as `List Char`, Python `float` arithmetic as
exact rationals (`ℚ`), Python `int` as `ℤ`/`ℕ` with explicit floor
division, and Python's `str.find` result (−1 on failure) as `Int`.
Glyph metrics (`draw.textlength`) are an abstract per-character advance
table with a bold and a regular weight.
-/

/-- `begins w l` holds when the character list `w` occurs at the start of
`l`; this is substring matching at one position. -/
def begins : List Char → List Char → Bool
  | [], _ => true
  | _ :: _, [] => false
  | a :: as, b :: bs => a == b && begins as bs

/-- Leftmost offset at which `needle` occurs in `hay`, or `none`.
Models Python `hay.find(needle)` (which returns the smallest matching
offset, and `0` for an empty needle). -/
def strFind (needle : List Char) : List Char → Option Nat
  | [] => if begins needle [] then some 0 else none
  | c :: rest =>
      if begins needle (c :: rest) then some 0
      else (strFind needle rest).map (· + 1)

/-- The effective start offset of Python `hay.find(needle, start)`: a
negative `start` counts from the end, clamped at 0. -/
def pyStart (hay : List Char) (start : Int) : Nat :=
  if start < 0 then ((hay.length : Int) + start).toNat else start.toNat

/-- Models Python `hay.find(needle, start)`: the leftmost occurrence at or
after `start`, or `-1` when there is none. -/
def pyFind (hay needle : List Char) (start : Int) : Int :=
  match strFind needle (hay.drop (pyStart hay start)) with
  | some k => (pyStart hay start : Int) + k
  | none => -1

/-- Models Python list indexing `l[i]` for a boolean list: a negative index
counts from the end.  An index that is out of range even after wrapping
raises `IndexError` in Python; that case is modelled as `false` and is
unreachable on every path proved below. -/
def pyIndex (l : List Bool) (i : Int) : Bool :=
  if 0 ≤ i then l.getD i.toNat false
  else l.getD ((l.length : Int) + i).toNat false

/-- Models Python `range(a, b)` over integers. -/
def intRange (a b : Int) : List Int :=
  (List.range (b - a).toNat).map (fun k : ℕ => a + (k : Int))

/-- Helper for `splitWords`: prepend the non-whitespace character `c` to
the word split of its tail `rest` (whose split is `ws`): start a fresh word
unless the tail begins with a non-whitespace character, in which case `c`
joins the tail's first word. -/
def splitCombine (c : Char) (rest : List Char) (ws : List (List Char)) : List (List Char) :=
  match rest, ws with
  | [], _ => [[c]]
  | _ :: _, [] => [[c]]
  | d :: _, w :: ws2 => if d.isWhitespace then [c] :: w :: ws2 else (c :: w) :: ws2

/-- Models Python `text.split()`: maximal runs of non-whitespace characters,
with whitespace runs discarded. -/
def splitWords : List Char → List (List Char)
  | [] => []
  | c :: rest =>
      if c.isWhitespace then splitWords rest
      else splitCombine c rest (splitWords rest)

/-- Helper for `tokensFrom`, the offset-carrying analogue of
`splitCombine`. -/
def tokensCombine (c : Char) (p : ℕ) (rest : List Char)
    (tks : List (Nat × List Char)) : List (Nat × List Char) :=
  match rest, tks with
  | [], _ => [(p, [c])]
  | _ :: _, [] => [(p, [c])]
  | d :: _, (s, w) :: ts =>
      if d.isWhitespace then (p, [c]) :: (s, w) :: ts else (p, c :: w) :: ts

/-- The words of a character list together with their absolute start
offsets, offsets counted from `p`.  `tokensFrom s p` tokenizes `s` viewed
as the suffix of a larger text beginning at offset `p`. -/
def tokensFrom : List Char → Nat → List (Nat × List Char)
  | [], _ => []
  | c :: rest, p =>
      if c.isWhitespace then tokensFrom rest (p + 1)
      else tokensCombine c p rest (tokensFrom rest (p + 1))

/-- Models Python `sep.join(xs)`. -/
def joinWith (sep : List α) : List (List α) → List α
  | [] => []
  | [x] => x
  | x :: y :: rest => x ++ sep ++ joinWith sep (y :: rest)

/-- Per-character advance widths of the two font weights used by the
renderer (the glyph metrics provider: `draw.textlength(char, font)`). -/
structure Fonts where
  bold : Char → ℚ
  regular : Char → ℚ

/-- Helper for `calculate_real_width`: iterate over the characters with
their running index `i`, choosing the bold advance when
`i < len(highlights) and highlights[i]`. -/
def calcWidthAux (F : Fonts) (hl : List Bool) : Nat → List Char → ℚ
  | _, [] => 0
  | i, c :: cs =>
      (if i < hl.length ∧ hl.getD i false = true then F.bold c else F.regular c) +
        calcWidthAux F hl (i + 1) cs

/-- `calculate_real_width` of `imgeditor.py`: the width of `text_str` as it
will be drawn, char by char, bold advance for highlighted characters and
regular advance otherwise. -/
def calculate_real_width (text_str : List Char) (highlights_list : List Bool) (F : Fonts) : ℚ :=
  calcWidthAux F highlights_list 0 text_str

/-- Mutable state of the word loop in `wrap_text_with_highlights`:
accumulated finished lines, the words and highlight flags of the current
line, and `char_position`. -/
structure WrapSt where
  lines : List (List Char × List Bool)
  curWords : List (List Char)
  curHl : List Bool
  pos : Int

/-- One iteration of the word loop of `wrap_text_with_highlights`
(`imgeditor.py`): locate the word with `text.find(word, char_position)`,
read its highlight flags off the mask, build the candidate line, and either
extend the current line (when `candidate_width * 1.15 <= max_width`) or
flush the current line and start a new one with this word. -/
def wrapStep (text : List Char) (highlight_mask : List Bool) (max_width : ℚ) (F : Fonts)
    (st : WrapSt) (word : List Char) : WrapSt :=
  let word_start : Int := pyFind text word st.pos
  let word_end : Int := word_start + word.length
  let word_highlight_chars : List Bool :=
    (intRange word_start word_end).map
      (fun i => if i < (highlight_mask.length : Int) then pyIndex highlight_mask i else false)
  let candidate_text : List Char :=
    if st.curWords ≠ [] then joinWith [' '] (st.curWords ++ [word]) else word
  let candidate_highlights : List Bool :=
    if st.curWords ≠ [] then st.curHl ++ [false] ++ word_highlight_chars
    else word_highlight_chars
  if calculate_real_width candidate_text candidate_highlights F * (115 / 100) ≤ max_width then
    { st with
      curWords := st.curWords ++ [word]
      curHl := (if st.curHl ≠ [] then st.curHl ++ [false] else st.curHl) ++ word_highlight_chars
      pos := word_end }
  else
    { lines := st.lines ++ (if st.curWords ≠ [] then [(joinWith [' '] st.curWords, st.curHl)] else [])
      curWords := [word]
      curHl := word_highlight_chars
      pos := word_end }

/-- After the word loop, flush the in-progress line if it is non-empty. -/
def wrapFinalize (st : WrapSt) : List (List Char × List Bool) :=
  st.lines ++ (if st.curWords ≠ [] then [(joinWith [' '] st.curWords, st.curHl)] else [])

/-- `wrap_text_with_highlights` of `imgeditor.py` (the same function is
inlined in `video_generator.py` and `generate_image_api.py`): word-based
wrapping preserving exact character-level highlight information. -/
def wrap_text_with_highlights (text : List Char) (highlight_mask : List Bool)
    (max_width : ℚ) (F : Fonts) : List (List Char × List Bool) :=
  wrapFinalize ((splitWords text).foldl (wrapStep text highlight_mask max_width F) ⟨[], [], [], 0⟩)

/-- The highlight mask construction of `create_composite_image`
(`imgeditor.py` lines 303–311): all-`false` of length `len(headline)`; when
`highlight` is non-empty (truthy) and occurs in `headline`, the entries in
`[find(highlight), find(highlight) + len(highlight))` are set `true`. -/
def build_highlight_mask (headline highlight : List Char) : List Bool :=
  if highlight ≠ [] ∧ (strFind highlight headline).isSome then
    match strFind highlight headline with
    | some s =>
        (List.range headline.length).map (fun i => decide (s ≤ i ∧ i < s + highlight.length))
    | none => List.replicate headline.length false
  else List.replicate headline.length false

/-- The highlight flags the wrap engine attaches to the word starting at
absolute offset `s`: the mask entry at each of the word's offsets, `false`
past the end of the mask. -/
def maskSlice (mask : List Bool) (s : Nat) (w : List Char) : List Bool :=
  (List.range w.length).map (fun k => if s + k < mask.length then mask.getD (s + k) false else false)

/-- The line a group `g` of consecutive positioned words is rendered to:
the words joined by single spaces, and the corresponding mask slices joined
by a single `false` per joining space. -/
def renderGroup (mask : List Bool) (g : List (Nat × List Char)) : List Char × List Bool :=
  (joinWith [' '] (g.map Prod.snd),
   joinWith [false] (g.map (fun sw => maskSlice mask sw.1 sw.2)))

/-- Offset bookkeeping invariant for a token list relative to a text: each
token starts at or after position `p`, only whitespace lies between `p` and
the token start, the token's characters are non-whitespace and match the
text at its offset, and the rest of the tokens chain on after its end. -/
def chain (text : List Char) : Nat → List (Nat × List Char) → Prop
  | _, [] => True
  | p, (s, w) :: ts =>
      p ≤ s ∧
      (∀ j, p ≤ j → j < s → j < text.length ∧ (text.getD j 'a').isWhitespace = true) ∧
      w ≠ [] ∧ (∀ c ∈ w, c.isWhitespace = false) ∧
      begins w (text.drop s) = true ∧
      chain text (s + w.length) ts

/-- Python `int()` applied to a rational value: truncation toward zero. -/
def pyInt (q : ℚ) : ℤ := if 0 ≤ q then ⌊q⌋ else ⌈q⌉

/-- `total_frames = int(duration * fps)` of `make_pan_scan_video`. -/
def totalFrames (duration : ℚ) (fps : ℕ) : ℤ := pyInt (duration * fps)

/-- The pre-easing time fraction of frame `frame_num` in
`make_pan_scan_video`: `t = frame_num / fps; p = t / duration`. -/
def frame_p (duration : ℚ) (fps : ℕ) (frame_num : ℕ) : ℚ :=
  ((frame_num : ℚ) / fps) / duration

/-- The smoothstep easing of `video_generator.py`. -/
def smoothstepQ (x : ℚ) : ℚ := x * x * (3 - 2 * x)

/-- The 8 accepted pan directions (`valid_directions` of
`generate_video_from_url` in `videoeditor.py`). -/
def valid_directions : List String :=
  ["left-to-right", "right-to-left",
   "top-to-bottom", "bottom-to-top",
   "zoom-in", "zoom-out",
   "diagonal-tl-br", "diagonal-tr-bl"]

/-- The direction validation of the `generate_video_from_url` endpoint: a
direction outside the fixed 8-variant set is rejected with an HTTP 400
error before `make_pan_scan_video` is invoked. -/
def generate_video_direction_check (direction : String) : Except String Unit :=
  if direction ∈ valid_directions then Except.ok ()
  else Except.error "direction must be one of the valid directions"

/-- The margin multipliers `(margin_w, margin_h)` chosen from the direction
in `make_pan_scan_video` (the diagonal case tests `"diagonal" in direction`
as a substring). -/
def margin_multipliers (direction : String) : ℚ × ℚ :=
  if direction = "left-to-right" ∨ direction = "right-to-left" then (125 / 100, 1)
  else if direction = "top-to-bottom" ∨ direction = "bottom-to-top" then (1, 125 / 100)
  else if (strFind ("diagonal".toList) direction.toList).isSome then (120 / 100, 120 / 100)
  else (115 / 100, 115 / 100)

/-- `max_pan_x/y = (oversized_dim - output_dim) / 2.0 * 0.7` of
`make_pan_scan_video`. -/
def max_pan (over out : ℕ) : ℚ := ((over : ℚ) - out) / 2 * (7 / 10)

/-- The center-crop origin `(W - out_w) // 2` of `make_pan_scan_video`. -/
def crop_origin (over out : ℕ) : ℕ := (over - out) / 2

/-- `zoom = zoom_start + (zoom_end - zoom_start) * p`, computed before the
per-direction dispatch of `make_pan_scan_video`. -/
def zoom_lin (zoom_start zoom_end p : ℚ) : ℚ := zoom_start + (zoom_end - zoom_start) * p

/-- The per-direction `(tx, ty, zoom)` dispatch of the frame loop of
`make_pan_scan_video`: cardinal directions pan one axis, diagonals pan
both, the two zoom directions override the zoom with the fixed `[1.0, 1.2]`
range, and any other direction falls through to `tx = ty = 0` with the
linear zoom unchanged. -/
def pan_params (direction : String) (mpx mpy p z : ℚ) : ℚ × ℚ × ℚ :=
  if direction = "left-to-right" then (-mpx + 2 * mpx * p, 0, z)
  else if direction = "right-to-left" then (mpx - 2 * mpx * p, 0, z)
  else if direction = "top-to-bottom" then (0, -mpy + 2 * mpy * p, z)
  else if direction = "bottom-to-top" then (0, mpy - 2 * mpy * p, z)
  else if direction = "diagonal-tl-br" then (-mpx + 2 * mpx * p, -mpy + 2 * mpy * p, z)
  else if direction = "diagonal-tr-bl" then (mpx - 2 * mpx * p, -mpy + 2 * mpy * p, z)
  else if direction = "zoom-in" then (0, 0, 1 + (2 / 10) * p)
  else if direction = "zoom-out" then (0, 0, 12 / 10 - (2 / 10) * p)
  else (0, 0, z)

/-- The forward affine map of `make_affine_matrix` at angle 0, one axis:
translate the center `c` to the origin, scale by `zoom`, translate back and
add the pan `t`. -/
def affine_fwd (zoom c t x : ℚ) : ℚ := zoom * (x - c) + c + t

/-- The source coordinate sampled for destination coordinate `q` by
`cv2.warpAffine` (which inverts the matrix when `WARP_INVERSE_MAP` is not
set), one axis: the inverse of `affine_fwd`. -/
def sample_coord (zoom c t q : ℚ) : ℚ := (q - c - t) / zoom + c

/-- `wrap_factor = 0.90 if frm == "instragram" else 0.85` of
`create_composite_image` in `src/imgeditor.py` (note the spelling of the
compared literal, taken verbatim from the source). -/
def wrap_factor_imgeditor (frm : String) : ℚ :=
  if frm = "instragram" then 90 / 100 else 85 / 100

/-- `wrap_factor = 0.90 if instagram_format else 0.85` of
`generate_image_api.py`. -/
def wrap_factor_api (instagram_format : Bool) : ℚ :=
  if instagram_format then 90 / 100 else 85 / 100

/-- A metrics table assigning every character an advance of 1 in both
weights; used to instantiate theorems at concrete inputs. -/
def unitFonts : Fonts := ⟨fun _ => 1, fun _ => 1⟩

/-- `total_boxes_height` of the line-box layout: each line's box is its
text height plus twice the vertical padding (10), and consecutive boxes are
separated by the inter-line spacing (8). -/
def totalBoxesHeight (heights : List ℤ) : ℤ :=
  (heights.map (fun h => h + 2 * 10)).sum + 8 * ((heights.length : ℤ) - 1)

/-- The per-line `y` positions produced by the drawing loop: the first box
at `y`, each next box one box height plus the spacing further down. -/
def stackYs (y : ℤ) : List ℤ → List ℤ
  | [] => []
  | h :: rest => y :: stackYs (y + (h + 2 * 10) + 8) rest

/-- The box `y` positions of `create_composite_image` /
`create_text_overlay`: stacking starts at
`height - total_boxes_height - 20`. -/
def boxYs (canvas_height : ℤ) (heights : List ℤ) : List ℤ :=
  stackYs (canvas_height - totalBoxesHeight heights - 20) heights

/-- One channel of the alpha blend of `apply_overlay`
(`video_generator.py`): `base * (1 - alpha) + overlay * alpha` with
`alpha = a / 255`, cast to `uint8` (truncation; the value is a convex
combination of channel values so it is already in range). -/
def blend_channel (b o a : ℕ) : ℕ :=
  (pyInt ((b : ℚ) * (1 - (a : ℚ) / 255) + (o : ℚ) * ((a : ℚ) / 255))).toNat

/-- The alpha blend of `apply_overlay` on one RGB pixel with one RGBA
overlay pixel. -/
def blend_pixel (b : ℕ × ℕ × ℕ) (o : (ℕ × ℕ × ℕ) × ℕ) : ℕ × ℕ × ℕ :=
  (blend_channel b.1 o.1.1 o.2,
   blend_channel b.2.1 o.1.2.1 o.2,
   blend_channel b.2.2 o.1.2.2 o.2)

/-- The overlay argument of `apply_overlay`: a 4-channel (RGBA) or
3-channel (RGB) pixel array, flattened to a pixel list. -/
inductive OverlayData where
  | rgba : List ((ℕ × ℕ × ℕ) × ℕ) → OverlayData
  | rgb : List (ℕ × ℕ × ℕ) → OverlayData

/-- `apply_overlay` of `video_generator.py`: with a 4-channel overlay, the
per-pixel alpha blend of base and overlay; with a 3-channel overlay,
`base = overlay` — the base frame is discarded and the overlay returned. -/
def apply_overlay (base : List (ℕ × ℕ × ℕ)) : OverlayData → List (ℕ × ℕ × ℕ)
  | OverlayData.rgba ov => List.zipWith blend_pixel base ov
  | OverlayData.rgb ov => ov

/-! ## Properties of `begins` and `strFind` -/

theorem strFind_some (needle hay : List Char) (s : Nat) (h : strFind needle hay = some s) :
    begins needle (hay.drop s) = true ∧ ∀ t, t < s → begins needle (hay.drop t) = false := by
  induction hay generalizing s with
  | nil =>
      rw [strFind] at h
      split at h
      · rename_i hb
        cases h
        exact ⟨by simpa using hb, fun t ht => absurd ht (by omega)⟩
      · cases h
  | cons c rest ih =>
      rw [strFind] at h
      split at h
      · rename_i hb
        cases h
        exact ⟨by simpa using hb, fun t ht => absurd ht (by omega)⟩
      · rename_i hb
        cases hf : strFind needle rest with
        | none => rw [hf] at h; simp at h
        | some s2 =>
            rw [hf] at h
            simp only [Option.map_some'] at h
            obtain rfl : s2 + 1 = s := by simpa using h
            obtain ⟨hbeg, hmin⟩ := ih s2 hf
            refine ⟨by simpa using hbeg, ?_⟩
            intro t ht
            cases t with
            | zero => simpa using hb
            | succ t2 => simpa using hmin t2 (by omega)

theorem strFind_of (needle hay : List Char) (s : Nat)
    (hb : begins needle (hay.drop s) = true)
    (hmin : ∀ t, t < s → begins needle (hay.drop t) = false) :
    strFind needle hay = some s := by
  induction hay generalizing s with
  | nil =>
      obtain rfl : s = 0 := by
        by_contra hs
        have h0 := hmin 0 (Nat.pos_of_ne_zero hs)
        simp only [List.drop_nil] at h0 hb
        rw [h0] at hb
        exact Bool.false_ne_true hb
      rw [strFind, if_pos (by simpa using hb)]
  | cons c rest ih =>
      rw [strFind]
      cases s with
      | zero => rw [if_pos (by simpa using hb)]
      | succ s2 =>
          have h0 : begins needle (c :: rest) = false := by simpa using hmin 0 (Nat.succ_pos _)
          rw [if_neg (by simp [h0])]
          rw [ih s2 (by simpa using hb) (fun t ht => by simpa using hmin (t + 1) (by omega))]
          rfl

/-- Claim C1: the computed highlight mask has length `len(headline)`; if
`highlight` is non-empty and occurs in `headline` at leftmost offset `s`,
the mask is `true` exactly on `[s, s + len(highlight))`; if `highlight` is
empty or does not occur, every entry is `false`. -/
theorem highlight_mask_spec (headline highlight : List Char) :
    (build_highlight_mask headline highlight).length = headline.length ∧
    (∀ s, highlight ≠ [] → strFind highlight headline = some s →
      begins highlight (headline.drop s) = true ∧
      (∀ t, t < s → begins highlight (headline.drop t) = false) ∧
      (∀ i, i < headline.length →
        ((build_highlight_mask headline highlight).getD i false = true ↔
          s ≤ i ∧ i < s + highlight.length))) ∧
    ((highlight = [] ∨ strFind highlight headline = none) →
      ∀ i, (build_highlight_mask headline highlight).getD i false = false) := by
  refine ⟨?_, ?_, ?_⟩
  · rw [build_highlight_mask]
    split
    · rename_i hcond
      cases hf : strFind highlight headline with
      | none => simp [hf]
      | some s => simp [hf]
    · simp
  · intro s hne hf
    obtain ⟨hbeg, hmin⟩ := strFind_some highlight headline s hf
    refine ⟨hbeg, hmin, ?_⟩
    intro i hi
    rw [build_highlight_mask, if_pos ⟨hne, by rw [hf]; rfl⟩, hf]
    rw [List.getD_eq_getElem?_getD, List.getElem?_map, List.getElem?_range hi]
    simp
  · intro hcase i
    have hcond : ¬(highlight ≠ [] ∧ (strFind highlight headline).isSome) := by
      rcases hcase with h | h
      · simp [h]
      · simp [h]
    rw [build_highlight_mask, if_neg hcond]
    rw [List.getD_eq_getElem?_getD, List.getElem?_replicate]
    split <;> rfl

/-- Witness for C1 at `headline = "AB AB"`, `highlight = "AB"`: the match
is at the leftmost offset 0, and only indices 0 and 1 are `true`. -/
theorem highlight_mask_spec_witness :
    begins ['A', 'B'] ((['A', 'B', ' ', 'A', 'B'] : List Char).drop 0) = true ∧
    (build_highlight_mask ['A', 'B', ' ', 'A', 'B'] ['A', 'B']).getD 0 false = true ∧
    (build_highlight_mask ['A', 'B', ' ', 'A', 'B'] ['A', 'B']).getD 3 false = false := by
  have h := (highlight_mask_spec ['A', 'B', ' ', 'A', 'B'] ['A', 'B']).2.1 0
    (by decide) (by decide)
  refine ⟨h.1, (h.2.2 0 (by decide)).mpr (by decide), ?_⟩
  have h3 := h.2.2 3 (by decide)
  have : ¬((build_highlight_mask ['A', 'B', ' ', 'A', 'B'] ['A', 'B']).getD 3 false = true) := by
    intro hc
    exact absurd (h3.mp hc) (by decide)
  simpa using this

/-! ## Frame time fractions (C5) -/

/-- Counterexample to claim C5: with `duration = 5`, `fps = 30` the frame
loop has 150 frames, and the pre-easing fraction of the final frame
(index 149) is `149/150`, not `149/(150 - 1) = 1`: the interpolation does
not reach its endpoint on the last frame. -/
theorem frame_fraction_counterexample :
    totalFrames 5 30 = 150 ∧
    frame_p 5 30 149 ≠ (149 : ℚ) / (150 - 1) ∧
    frame_p 5 30 149 ≠ 1 := by
  refine ⟨?_, ?_, ?_⟩
  · rw [totalFrames, pyInt, if_pos (by norm_num)]
    norm_num
  · rw [frame_p]; norm_num
  · rw [frame_p]; norm_num

/-- Claim C5 (amended): the pre-easing time fraction of frame `i` equals
`i / (duration × fps)` (not `i / (total_frames − 1)`), and is strictly
below 1 on every frame of the loop, the final frame included. -/
theorem frame_fraction (duration : ℚ) (fps : ℕ) (i : ℕ)
    (hd : 0 < duration) (hf : 0 < fps) :
    frame_p duration fps i = (i : ℚ) / (duration * fps) ∧
    ((i : ℤ) < totalFrames duration fps → frame_p duration fps i < 1) := by
  have hf0 : (0 : ℚ) < (fps : ℚ) := by exact_mod_cast hf
  constructor
  · rw [frame_p, div_div, mul_comm]
  · intro hi
    rw [totalFrames, pyInt, if_pos (by positivity)] at hi
    have h1 : (i : ℤ) + 1 ≤ ⌊duration * (fps : ℚ)⌋ := hi
    have h2 : (((i : ℤ) + 1 : ℤ) : ℚ) ≤ duration * fps := Int.le_floor.mp h1
    rw [frame_p, div_div, div_lt_one (by positivity)]
    push_cast at h2
    nlinarith [h2]

/-- Witness for the amended C5 at `duration = 5`, `fps = 30`, frame 149. -/
theorem frame_fraction_witness :
    frame_p 5 30 149 = (149 : ℚ) / (5 * 30) ∧ frame_p 5 30 149 < 1 :=
  ⟨(frame_fraction 5 30 149 (by norm_num) (by norm_num)).1,
   (frame_fraction 5 30 149 (by norm_num) (by norm_num)).2
     (by rw [totalFrames, pyInt, if_pos (by norm_num)]; norm_num)⟩

/-! ## Direction validation (C7) -/

/-- Counterexample to claim C7: `make_pan_scan_video` itself raises no
error for an unrecognized direction — the per-frame dispatch falls through
to `tx = ty = 0` and frame generation proceeds with zero motion. -/
theorem direction_silent_default :
    "sideways" ∉ valid_directions ∧
    pan_params "sideways" (37 / 10) (41 / 10) (1 / 3) (zoom_lin 1 (12 / 10) (1 / 3)) =
      (0, 0, zoom_lin 1 (12 / 10) (1 / 3)) := by
  refine ⟨by decide, ?_⟩
  rw [pan_params]
  rw [if_neg (by decide), if_neg (by decide), if_neg (by decide), if_neg (by decide),
    if_neg (by decide), if_neg (by decide), if_neg (by decide), if_neg (by decide)]

/-- Claim C7 (amended): the HTTP endpoint `generate_video_from_url`
rejects a direction outside the 8-variant set before calling
`make_pan_scan_video`; `make_pan_scan_video` itself does not validate —
for an unrecognized direction its per-frame dispatch silently produces
zero pan with the linear zoom unchanged. -/
theorem direction_validation (direction : String) :
    (generate_video_direction_check direction = Except.ok () ↔ direction ∈ valid_directions) ∧
    (direction ∉ valid_directions →
      ∀ mpx mpy p z, pan_params direction mpx mpy p z = (0, 0, z)) := by
  constructor
  · rw [generate_video_direction_check]
    split
    · simp [*]
    · simp [*]
  · intro h mpx mpy p z
    simp only [valid_directions, List.mem_cons, List.not_mem_nil, or_false] at h
    push_neg at h
    obtain ⟨h1, h2, h3, h4, h5, h6, h7, h8⟩ := h
    rw [pan_params, if_neg h1, if_neg h2, if_neg h3, if_neg h4, if_neg h5, if_neg h6,
      if_neg h7, if_neg h8]

/-- Witness for the amended C7 at the invalid direction `"sideways"`. -/
theorem direction_validation_witness :
    pan_params "sideways" 1 1 (1 / 2) (11 / 10) = (0, 0, 11 / 10) :=
  (direction_validation "sideways").2 (by decide) 1 1 (1 / 2) (11 / 10)

/-! ## Vertical line-box stacking (C9) -/

theorem stackYs_length (y : ℤ) (hs : List ℤ) : (stackYs y hs).length = hs.length := by
  induction hs generalizing y with
  | nil => rfl
  | cons h rest ih => simp [stackYs, ih]

theorem stackYs_step (y : ℤ) (hs : List ℤ) (i : ℕ) (hi : i + 1 < hs.length) :
    (stackYs y hs).getD (i + 1) 0 =
      (stackYs y hs).getD i 0 + (hs.getD i 0 + 2 * 10) + 8 := by
  induction hs generalizing y i with
  | nil => simp at hi
  | cons h rest ih =>
      cases i with
      | zero =>
          have hne : rest ≠ [] := by
            intro hr
            rw [hr] at hi
            simp at hi
          obtain ⟨h2, rest2, rfl⟩ : ∃ a l, rest = a :: l := by
            cases rest with
            | nil => exact absurd rfl hne
            | cons a l => exact ⟨a, l, rfl⟩
          simp [stackYs]
      | succ i2 =>
          have := ih (y + (h + 2 * 10) + 8) i2 (by simpa using hi)
          simpa [stackYs] using this

/-- Claim C9: the line boxes stack top-to-bottom starting at
`canvas_height − total_stack_height − 20`; each next box's `y` is the
previous `y` plus the previous box height (`text_height + 2×10`) plus 8,
so consecutive boxes never overlap vertically. -/
theorem box_stacking (canvas_height : ℤ) (heights : List ℤ) (hne : heights ≠ []) :
    (boxYs canvas_height heights).length = heights.length ∧
    (boxYs canvas_height heights).head? =
      some (canvas_height - totalBoxesHeight heights - 20) ∧
    ∀ i, i + 1 < heights.length →
      (boxYs canvas_height heights).getD (i + 1) 0 =
          (boxYs canvas_height heights).getD i 0 + (heights.getD i 0 + 2 * 10) + 8 ∧
        (boxYs canvas_height heights).getD i 0 + (heights.getD i 0 + 2 * 10) ≤
          (boxYs canvas_height heights).getD (i + 1) 0 := by
  refine ⟨stackYs_length _ _, ?_, ?_⟩
  · obtain ⟨h, rest, rfl⟩ : ∃ a l, heights = a :: l := by
      cases heights with
      | nil => exact absurd rfl hne
      | cons a l => exact ⟨a, l, rfl⟩
    simp [boxYs, stackYs]
  · intro i hi
    have hstep := stackYs_step (canvas_height - totalBoxesHeight heights - 20) heights i hi
    rw [boxYs]
    exact ⟨hstep, by omega⟩

/-- Witness for C9 at canvas height 1000 with line text heights 30 and 40:
the second box starts exactly one box height plus the 8px spacing below
the first. -/
theorem box_stacking_witness :
    (boxYs 1000 [30, 40]).getD 1 0 =
        (boxYs 1000 [30, 40]).getD 0 0 + (([30, 40] : List ℤ).getD 0 0 + 2 * 10) + 8 ∧
      (boxYs 1000 [30, 40]).getD 0 0 + (([30, 40] : List ℤ).getD 0 0 + 2 * 10) ≤
        (boxYs 1000 [30, 40]).getD 1 0 :=
  (box_stacking 1000 [30, 40] (by decide)).2.2 0 (by decide)

/-! ## Overlay compositing (C10) -/

/-- Claim C10: with a 4-channel overlay, `apply_overlay` blends per pixel
with `base×(1−α) + overlay×α` (`α = alpha/255`, result cast to `uint8`),
so a fully transparent pixel keeps the base and a fully opaque pixel takes
the overlay; with a 3-channel overlay the result is the overlay itself,
independent of the base frame — no blending occurs. -/
theorem apply_overlay_spec (base base2 : List (ℕ × ℕ × ℕ))
    (ov4 : List ((ℕ × ℕ × ℕ) × ℕ)) (ov3 : List (ℕ × ℕ × ℕ)) (i : ℕ) :
    (i < base.length → i < ov4.length →
      (apply_overlay base (OverlayData.rgba ov4)).getD i (0, 0, 0) =
        blend_pixel (base.getD i (0, 0, 0)) (ov4.getD i ((0, 0, 0), 0))) ∧
    (∀ b o, o.2 = 0 → blend_pixel b o = b) ∧
    (∀ b o, o.2 = 255 → blend_pixel b o = o.1) ∧
    apply_overlay base (OverlayData.rgb ov3) = ov3 ∧
    apply_overlay base (OverlayData.rgb ov3) = apply_overlay base2 (OverlayData.rgb ov3) := by
  refine ⟨?_, ?_, ?_, rfl, rfl⟩
  · intro hb ho
    rw [apply_overlay]
    rw [List.getD_eq_getElem?_getD, List.getElem?_zipWith]
    rw [List.getElem?_eq_getElem hb, List.getElem?_eq_getElem ho]
    simp [List.getD_eq_getElem?_getD, List.getElem?_eq_getElem hb,
      List.getElem?_eq_getElem ho]
  · intro b o h0
    obtain ⟨⟨orr, org, orb⟩, oa⟩ := o
    obtain ⟨br, bg, bb⟩ := b
    simp only at h0
    subst h0
    have hch : ∀ b2 o2 : ℕ, blend_channel b2 o2 0 = b2 := by
      intro b2 o2
      rw [blend_channel, pyInt, if_pos (by positivity)]
      norm_num
    simp [blend_pixel, hch]
  · intro b o h255
    obtain ⟨⟨orr, org, orb⟩, oa⟩ := o
    obtain ⟨br, bg, bb⟩ := b
    simp only at h255
    subst h255
    have hch : ∀ b2 o2 : ℕ, blend_channel b2 o2 255 = o2 := by
      intro b2 o2
      rw [blend_channel, pyInt, if_pos (by positivity)]
      norm_num
    simp [blend_pixel, hch]

/-- Witness for C10: a fully transparent overlay pixel leaves the base
pixel unchanged, and a 3-channel overlay replaces the frame outright. -/
theorem apply_overlay_spec_witness :
    blend_pixel (5, 6, 7) ((9, 9, 9), 0) = (5, 6, 7) ∧
    apply_overlay [(1, 2, 3)] (OverlayData.rgb [(8, 8, 8)]) = [(8, 8, 8)] :=
  ⟨(apply_overlay_spec [] [] [] [] 0).2.1 (5, 6, 7) ((9, 9, 9), 0) rfl,
   (apply_overlay_spec [(1, 2, 3)] [] [] [(8, 8, 8)] 0).2.2.2.1⟩

/-! ## Pan range containment (C6) -/

theorem max_pan_nonneg (over out : ℕ) (h : out ≤ over) : 0 ≤ max_pan over out := by
  rw [max_pan]
  have hq : (out : ℚ) ≤ (over : ℚ) := by exact_mod_cast h
  nlinarith

theorem zoom_lin_ge_one (zs ze p : ℚ) (h1 : 1 ≤ zs) (h2 : 1 ≤ ze)
    (hp0 : 0 ≤ p) (hp1 : p ≤ 1) : 1 ≤ zoom_lin zs ze p := by
  rw [zoom_lin]
  nlinarith

theorem pan_forward_abs_le (mp p : ℚ) (hmp : 0 ≤ mp) (hp0 : 0 ≤ p) (hp1 : p ≤ 1) :
    |(-mp + 2 * mp * p)| ≤ mp := by
  rw [abs_le]
  constructor <;> nlinarith

theorem pan_backward_abs_le (mp p : ℚ) (hmp : 0 ≤ mp) (hp0 : 0 ≤ p) (hp1 : p ≤ 1) :
    |(mp - 2 * mp * p)| ≤ mp := by
  rw [abs_le]
  constructor <;> nlinarith

/-- One axis of the containment argument: a destination pixel of the
center-cropped region samples a source coordinate inside `[0, W − 1]`,
provided the pan magnitude is capped by `max_pan`, the zoom is at least 1,
and the crop slack on this axis is neither 1 nor 3. -/
theorem axis_contained (out W xd : ℕ) (t zoom : ℚ)
    (hW2 : 2 ≤ W) (hle : out ≤ W)
    (hz1 : 1 ≤ zoom)
    (ht : |t| ≤ max_pan W out)
    (hs1 : W - out ≠ 1) (hs3 : W - out ≠ 3)
    (hx1 : crop_origin W out ≤ xd) (hx2 : xd < crop_origin W out + out) :
    0 ≤ sample_coord zoom ((W : ℚ) / 2) t (xd : ℚ) ∧
      sample_coord zoom ((W : ℚ) / 2) t (xd : ℚ) ≤ (W : ℚ) - 1 := by
  have hz0 : (0 : ℚ) < zoom := lt_of_lt_of_le one_pos hz1
  have hkey1 : 7 * (W - out) ≤ 20 * ((W - out) / 2) := by omega
  have hkey2 : 20 * ((W - out) / 2) ≤ 13 * (W - out) := by omega
  have hsq : ((W - out : ℕ) : ℚ) = (W : ℚ) - out := by
    push_cast [Nat.cast_sub hle]
    ring
  have hmp : max_pan W out = ((W - out : ℕ) : ℚ) * 7 / 20 := by
    rw [max_pan, hsq]
    ring
  have hx0q : (7 : ℚ) * ((W - out : ℕ) : ℚ) / 20 ≤ (crop_origin W out : ℚ) := by
    have h1 : ((7 * (W - out) : ℕ) : ℚ) ≤ ((20 * ((W - out) / 2) : ℕ) : ℚ) := by
      exact_mod_cast hkey1
    rw [crop_origin]
    push_cast at h1
    linarith
  have hx0q2 : (crop_origin W out : ℚ) ≤ 13 * ((W - out : ℕ) : ℚ) / 20 := by
    have h1 : ((20 * ((W - out) / 2) : ℕ) : ℚ) ≤ ((13 * (W - out) : ℕ) : ℚ) := by
      exact_mod_cast hkey2
    rw [crop_origin]
    push_cast at h1
    linarith
  have habs := abs_le.mp ht
  have hxdq : (crop_origin W out : ℚ) ≤ (xd : ℚ) := by exact_mod_cast hx1
  have hxdq2 : (xd : ℚ) + 1 ≤ (crop_origin W out : ℚ) + out := by
    have : xd + 1 ≤ crop_origin W out + out := hx2
    exact_mod_cast this
  have hA : 0 ≤ (xd : ℚ) - t := by
    rw [hmp] at habs
    linarith [habs.2, hx0q, hxdq]
  have hB : (xd : ℚ) - t ≤ (W : ℚ) - 1 := by
    rw [hmp] at habs
    have hWout : ((W - out : ℕ) : ℚ) = (W : ℚ) - out := hsq
    linarith [habs.1, hx0q2, hxdq2]
  have hc1 : (0 : ℚ) ≤ (W : ℚ) / 2 := by positivity
  have hc2 : (W : ℚ) / 2 ≤ (W : ℚ) - 1 := by
    have : (2 : ℚ) ≤ (W : ℚ) := by exact_mod_cast hW2
    linarith
  have key : sample_coord zoom ((W : ℚ) / 2) t (xd : ℚ) =
      (((xd : ℚ) - t - (W : ℚ) / 2) + ((W : ℚ) / 2) * zoom) / zoom := by
    rw [sample_coord]
    field_simp
    ring
  have hprod1 : 0 ≤ (zoom - 1) * ((W : ℚ) / 2) := mul_nonneg (by linarith) hc1
  have hprod2 : 0 ≤ (zoom - 1) * ((W : ℚ) - 1 - (W : ℚ) / 2) := mul_nonneg (by linarith) (by linarith)
  constructor
  · rw [key, le_div_iff₀ hz0]
    nlinarith [hA, hprod1]
  · rw [key, div_le_iff₀ hz0]
    nlinarith [hB, hprod2]

/-- Claim C6 (amended): for every eased fraction `p ∈ [0,1]`, every one of
the 8 directions, caller zoom bounds inside `[1.0, 1.2]`, oversized source
dimensions `W × H` at least `2 × 2` covering the output `out_w × out_h`,
and per-axis crop slack not equal to 1 or 3 (for example any even slack,
as with all production dimensions), every destination pixel of the
center-cropped region samples a source coordinate inside the oversized
source bounds, so edge replication is never exercised. -/
theorem pan_scan_containment (out_w out_h W H : ℕ) (direction : String)
    (zs ze p : ℚ) (i j : ℕ) (tx ty z : ℚ)
    (hdir : direction ∈ valid_directions)
    (hW2 : 2 ≤ W) (hH2 : 2 ≤ H) (hw : out_w ≤ W) (hh : out_h ≤ H)
    (hp0 : 0 ≤ p) (hp1 : p ≤ 1)
    (hzs1 : 1 ≤ zs) (hzs2 : zs ≤ 12 / 10) (hze1 : 1 ≤ ze) (hze2 : ze ≤ 12 / 10)
    (hsx1 : W - out_w ≠ 1) (hsx3 : W - out_w ≠ 3)
    (hsy1 : H - out_h ≠ 1) (hsy3 : H - out_h ≠ 3)
    (hi1 : crop_origin W out_w ≤ i) (hi2 : i < crop_origin W out_w + out_w)
    (hj1 : crop_origin H out_h ≤ j) (hj2 : j < crop_origin H out_h + out_h)
    (hpp : pan_params direction (max_pan W out_w) (max_pan H out_h) p (zoom_lin zs ze p) =
      (tx, ty, z)) :
    0 ≤ sample_coord z ((W : ℚ) / 2) tx (i : ℚ) ∧
      sample_coord z ((W : ℚ) / 2) tx (i : ℚ) ≤ (W : ℚ) - 1 ∧
      0 ≤ sample_coord z ((H : ℚ) / 2) ty (j : ℚ) ∧
      sample_coord z ((H : ℚ) / 2) ty (j : ℚ) ≤ (H : ℚ) - 1 := by
  have hmpx0 : 0 ≤ max_pan W out_w := max_pan_nonneg W out_w hw
  have hmpy0 : 0 ≤ max_pan H out_h := max_pan_nonneg H out_h hh
  have hzlin : 1 ≤ zoom_lin zs ze p := zoom_lin_ge_one zs ze p hzs1 hze1 hp0 hp1
  have hzero_x : |(0 : ℚ)| ≤ max_pan W out_w := by simpa using hmpx0
  have hzero_y : |(0 : ℚ)| ≤ max_pan H out_h := by simpa using hmpy0
  have hxf : |(-max_pan W out_w + 2 * max_pan W out_w * p)| ≤ max_pan W out_w :=
    pan_forward_abs_le _ p hmpx0 hp0 hp1
  have hxb : |(max_pan W out_w - 2 * max_pan W out_w * p)| ≤ max_pan W out_w :=
    pan_backward_abs_le _ p hmpx0 hp0 hp1
  have hyf : |(-max_pan H out_h + 2 * max_pan H out_h * p)| ≤ max_pan H out_h :=
    pan_forward_abs_le _ p hmpy0 hp0 hp1
  have hyb : |(max_pan H out_h - 2 * max_pan H out_h * p)| ≤ max_pan H out_h :=
    pan_backward_abs_le _ p hmpy0 hp0 hp1
  have hzin : 1 ≤ 1 + (2 / 10) * p := by nlinarith
  have hzout : 1 ≤ 12 / 10 - (2 / 10) * p := by nlinarith
  simp only [valid_directions, List.mem_cons, List.not_mem_nil, or_false] at hdir
  have axX := fun (t zoom : ℚ) (h1 : 1 ≤ zoom) (h2 : |t| ≤ max_pan W out_w) =>
    axis_contained out_w W i t zoom hW2 hw h1 h2 hsx1 hsx3 hi1 hi2
  have axY := fun (t zoom : ℚ) (h1 : 1 ≤ zoom) (h2 : |t| ≤ max_pan H out_h) =>
    axis_contained out_h H j t zoom hH2 hh h1 h2 hsy1 hsy3 hj1 hj2
  rcases hdir with rfl | rfl | rfl | rfl | rfl | rfl | rfl | rfl <;>
    simp only [pan_params] at hpp <;>
    simp only [reduceIte, Prod.mk.injEq] at hpp <;>
    obtain ⟨rfl, rfl, rfl⟩ := hpp
  · exact ⟨(axX _ _ hzlin hxf).1, (axX _ _ hzlin hxf).2,
      (axY _ _ hzlin hzero_y).1, (axY _ _ hzlin hzero_y).2⟩
  · exact ⟨(axX _ _ hzlin hxb).1, (axX _ _ hzlin hxb).2,
      (axY _ _ hzlin hzero_y).1, (axY _ _ hzlin hzero_y).2⟩
  · exact ⟨(axX _ _ hzlin hzero_x).1, (axX _ _ hzlin hzero_x).2,
      (axY _ _ hzlin hyf).1, (axY _ _ hzlin hyf).2⟩
  · exact ⟨(axX _ _ hzlin hzero_x).1, (axX _ _ hzlin hzero_x).2,
      (axY _ _ hzlin hyb).1, (axY _ _ hzlin hyb).2⟩
  · exact ⟨(axX _ _ hzin hzero_x).1, (axX _ _ hzin hzero_x).2,
      (axY _ _ hzin hzero_y).1, (axY _ _ hzin hzero_y).2⟩
  · exact ⟨(axX _ _ hzout hzero_x).1, (axX _ _ hzout hzero_x).2,
      (axY _ _ hzout hzero_y).1, (axY _ _ hzout hzero_y).2⟩
  · exact ⟨(axX _ _ hzlin hxf).1, (axX _ _ hzlin hxf).2,
      (axY _ _ hzlin hyf).1, (axY _ _ hzlin hyf).2⟩
  · exact ⟨(axX _ _ hzlin hxb).1, (axX _ _ hzlin hxb).2,
      (axY _ _ hzlin hyf).1, (axY _ _ hzlin hyf).2⟩

/-- Counterexample to claim C6 as stated: with output 4×4 and direction
`"left-to-right"`, the margins (1.25, 1.0) give an oversized source of
5×4 (slack 1 on the panning axis); at `p = 1` the crop's leftmost pixel
column (destination x = `(5−4)//2 = 0`) samples source x-coordinate
`−7/20 < 0`, outside the oversized source bounds, so edge replication is
exercised. -/
theorem pan_scan_containment_counterexample :
    pyInt ((4 : ℚ) * (125 / 100)) = 5 ∧
    pyInt ((4 : ℚ) * 1) = 4 ∧
    crop_origin 5 4 = 0 ∧
    (pan_params "left-to-right" (max_pan 5 4) (max_pan 4 4) 1 (zoom_lin 1 1 1)).1 = 7 / 20 ∧
    sample_coord (pan_params "left-to-right" (max_pan 5 4) (max_pan 4 4) 1 (zoom_lin 1 1 1)).2.2
        ((5 : ℚ) / 2)
        (pan_params "left-to-right" (max_pan 5 4) (max_pan 4 4) 1 (zoom_lin 1 1 1)).1
        ((crop_origin 5 4 : ℚ)) < 0 := by
  have hz : zoom_lin 1 1 1 = 1 := by rw [zoom_lin]; ring
  have hpp : pan_params "left-to-right" (max_pan 5 4) (max_pan 4 4) 1 (zoom_lin 1 1 1) =
      (7 / 20, 0, 1) := by
    rw [pan_params, if_pos rfl, hz]
    have hmp : max_pan 5 4 = 7 / 20 := by rw [max_pan]; norm_num
    rw [hmp]
    norm_num
  refine ⟨?_, ?_, by decide, ?_, ?_⟩
  · rw [pyInt, if_pos (by norm_num)]
    norm_num
  · rw [pyInt, if_pos (by norm_num)]
    norm_num
  · rw [hpp]
  · rw [hpp, sample_coord]
    norm_num [crop_origin]

/-- Witness for the amended C6 at production dimensions: output 1080×1080,
direction `"left-to-right"` with oversized source 1350×1080 (even slack),
`p = 1/2`, default zoom bounds, destination pixel (135, 0). -/
theorem pan_scan_containment_witness :
    0 ≤ sample_coord (1 : ℚ) ((1350 : ℚ) / 2) (0 : ℚ) ((135 : ℚ)) ∧
      sample_coord (1 : ℚ) ((1350 : ℚ) / 2) (0 : ℚ) ((135 : ℚ)) ≤ (1350 : ℚ) - 1 ∧
      0 ≤ sample_coord (1 : ℚ) ((1080 : ℚ) / 2) (0 : ℚ) ((0 : ℚ)) ∧
      sample_coord (1 : ℚ) ((1080 : ℚ) / 2) (0 : ℚ) ((0 : ℚ)) ≤ (1080 : ℚ) - 1 := by
  have h := pan_scan_containment 1080 1080 1350 1080 "left-to-right" 1 1 (1 / 2) 135 0
    (-max_pan 1350 1080 + 2 * max_pan 1350 1080 * (1 / 2)) 0 (zoom_lin 1 1 (1 / 2))
    (by decide) (by norm_num) (by norm_num) (by norm_num) (by norm_num)
    (by norm_num) (by norm_num) (by norm_num) (by norm_num) (by norm_num) (by norm_num)
    (by norm_num) (by norm_num) (by norm_num) (by norm_num)
    (by norm_num [crop_origin]) (by norm_num [crop_origin])
    (by norm_num [crop_origin]) (by norm_num [crop_origin])
    (by rw [pan_params, if_pos rfl])
  have hmp : -max_pan 1350 1080 + 2 * max_pan 1350 1080 * (1 / 2) = 0 := by ring
  have hzl : zoom_lin 1 1 (1 / 2) = 1 := by rw [zoom_lin]; ring
  have h2 := h
  rw [hmp, hzl] at h2
  have hco : ((crop_origin 1350 1080 : ℕ) : ℚ) = 135 := by norm_num [crop_origin]
  exact h2

/-! ## Tokenization with offsets -/

theorem drop_eq_cons_facts {α : Type} (l : List α) (p : ℕ) (c : α) (r : List α) (d : α)
    (h : l.drop p = c :: r) : p < l.length ∧ l.getD p d = c ∧ l.drop (p + 1) = r := by
  induction p generalizing l with
  | zero =>
      rw [List.drop_zero] at h
      subst h
      exact ⟨by simp, rfl, by simp⟩
  | succ p ih =>
      cases l with
      | nil => simp at h
      | cons a l2 =>
          rw [List.drop_succ_cons] at h
          obtain ⟨h1, h2, h3⟩ := ih l2 h
          exact ⟨by simpa using Nat.succ_lt_succ h1, by simpa using h2, by simpa using h3⟩

theorem chain_weaken (text : List Char) (p : ℕ) (ts : List (Nat × List Char))
    (h : chain text (p + 1) ts) (hlen : p < text.length)
    (hws : (text.getD p 'a').isWhitespace = true) : chain text p ts := by
  cases ts with
  | nil => trivial
  | cons sw ts2 =>
      obtain ⟨s, w⟩ := sw
      obtain ⟨h1, h2, h3, h4, h5, h6⟩ := h
      refine ⟨by omega, ?_, h3, h4, h5, h6⟩
      intro j hj1 hj2
      rcases Nat.eq_or_lt_of_le hj1 with rfl | hj3
      · exact ⟨hlen, hws⟩
      · exact h2 j hj3 hj2

theorem tokensFrom_head_nonws (d : Char) (r : List Char) (q : ℕ)
    (hd : d.isWhitespace = false) :
    ∃ w ts, tokensFrom (d :: r) q = (q, d :: w) :: ts := by
  rw [tokensFrom, if_neg (by simp [hd])]
  cases r with
  | nil => exact ⟨[], [], rfl⟩
  | cons e r2 =>
      cases htf : tokensFrom (e :: r2) (q + 1) with
      | nil => exact ⟨[], [], by rw [tokensCombine]⟩
      | cons sw ts =>
          obtain ⟨s, w⟩ := sw
          by_cases he : e.isWhitespace = true
          · exact ⟨[], (s, w) :: ts, by rw [tokensCombine, if_pos he]⟩
          · exact ⟨w, ts, by rw [tokensCombine, if_neg he]⟩

theorem chain_tokensFrom (text : List Char) :
    ∀ (s : List Char) (p : ℕ), text.drop p = s → chain text p (tokensFrom s p) := by
  intro s
  induction s with
  | nil =>
      intro p _
      rw [tokensFrom]
      trivial
  | cons c r ih =>
      intro p h
      obtain ⟨hplen, hgetD, hdrop1⟩ := drop_eq_cons_facts text p c r 'a' h
      by_cases hc : c.isWhitespace = true
      · rw [tokensFrom, if_pos hc]
        exact chain_weaken text p _ (ih (p + 1) hdrop1) hplen (by rw [hgetD]; exact hc)
      · have hcf : c.isWhitespace = false := by simpa using hc
        rw [tokensFrom, if_neg hc]
        cases r with
        | nil =>
            rw [tokensCombine]
            refine ⟨le_refl p, fun j hj1 hj2 => absurd hj2 (by omega), by simp, ?_, ?_, trivial⟩
            · intro x hx
              simp only [List.mem_singleton] at hx
              subst hx
              exact hcf
            · rw [h]
              simp [begins]
        | cons d r2 =>
            have hch := ih (p + 1) hdrop1
            by_cases hd : d.isWhitespace = true
            · cases htf : tokensFrom (d :: r2) (p + 1) with
              | nil =>
                  rw [tokensCombine]
                  refine ⟨le_refl p, fun j hj1 hj2 => absurd hj2 (by omega), by simp, ?_, ?_,
                    trivial⟩
                  · intro x hx
                    simp only [List.mem_singleton] at hx
                    subst hx
                    exact hcf
                  · rw [h]
                    simp [begins]
              | cons sw ts =>
                  obtain ⟨s0, w0⟩ := sw
                  rw [htf] at hch
                  rw [tokensCombine, if_pos hd]
                  refine ⟨le_refl p, fun j hj1 hj2 => absurd hj2 (by omega), by simp, ?_, ?_, ?_⟩
                  · intro x hx
                    simp only [List.mem_singleton] at hx
                    subst hx
                    exact hcf
                  · rw [h]
                    simp [begins]
                  · simpa using hch
            · have hdf : d.isWhitespace = false := by simpa using hd
              obtain ⟨w2, ts2, htf⟩ := tokensFrom_head_nonws d r2 (p + 1) hdf
              rw [htf] at hch ⊢
              rw [tokensCombine, if_neg hd]
              obtain ⟨hc1, hc2, hc3, hc4, hc5, hc6⟩ := hch
              refine ⟨le_refl p, fun j hj1 hj2 => absurd hj2 (by omega), by simp, ?_, ?_, ?_⟩
              · intro x hx
                rcases List.mem_cons.mp hx with rfl | hx2
                · exact hcf
                · exact hc4 x hx2
              · rw [h]
                have h5 : begins (d :: w2) (text.drop (p + 1)) = true := hc5
                rw [hdrop1] at h5
                simpa [begins] using h5
              · have harith : p + (c :: d :: w2).length = p + 1 + (d :: w2).length := by
                  simp only [List.length_cons]
                  omega
                rw [harith]
                exact hc6

theorem tokensFrom_snd :
    ∀ (s : List Char) (p : ℕ), (tokensFrom s p).map Prod.snd = splitWords s := by
  intro s
  induction s with
  | nil => intro p; rfl
  | cons c r ih =>
      intro p
      rw [tokensFrom, splitWords]
      by_cases hc : c.isWhitespace = true
      · rw [if_pos hc, if_pos hc]
        exact ih (p + 1)
      · rw [if_neg hc, if_neg hc]
        rw [← ih (p + 1)]
        cases r with
        | nil => rfl
        | cons d r2 =>
            cases htf : tokensFrom (d :: r2) (p + 1) with
            | nil => simp [tokensCombine, splitCombine]
            | cons sw ts =>
                obtain ⟨s0, w0⟩ := sw
                by_cases hd : d.isWhitespace = true
                · simp [tokensCombine, splitCombine, hd]
                · simp [tokensCombine, splitCombine, hd]

theorem chain_good (text : List Char) :
    ∀ (ts : List (Nat × List Char)) (p : ℕ), chain text p ts →
      ∀ sw ∈ ts, sw.2 ≠ [] ∧ ∀ c ∈ sw.2, c.isWhitespace = false := by
  intro ts
  induction ts with
  | nil =>
      intro p _ sw hsw
      simp at hsw
  | cons sw0 ts2 ih =>
      intro p hch sw hsw
      obtain ⟨s, w⟩ := sw0
      obtain ⟨h1, h2, h3, h4, h5, h6⟩ := hch
      rcases List.mem_cons.mp hsw with rfl | hsw2
      · exact ⟨h3, h4⟩
      · exact ih (s + w.length) h6 sw hsw2

theorem splitWords_good (s : List Char) :
    ∀ w ∈ splitWords s, w ≠ [] ∧ ∀ c ∈ w, c.isWhitespace = false := by
  intro w hw
  rw [← tokensFrom_snd s 0] at hw
  obtain ⟨sw, hsw, rfl⟩ := List.mem_map.mp hw
  exact chain_good s (tokensFrom s 0) 0 (chain_tokensFrom s s 0 (by simp)) sw hsw

/-! ## Algebra of `joinWith` -/

theorem joinWith_cons {α : Type} (sep : List α) (x : List α) (xs : List (List α)) (h : xs ≠ []) :
    joinWith sep (x :: xs) = x ++ sep ++ joinWith sep xs := by
  cases xs with
  | nil => exact absurd rfl h
  | cons y ys => rfl

theorem joinWith_ne_nil {α : Type} (sep : List α) (x : List α) (xs : List (List α))
    (hx : x ≠ []) : joinWith sep (x :: xs) ≠ [] := by
  cases xs with
  | nil => simpa [joinWith] using hx
  | cons y ys => simp [joinWith, hx]

theorem joinWith_append {α : Type} (sep : List α) (xs ys : List (List α))
    (hx : xs ≠ []) (hy : ys ≠ []) :
    joinWith sep (xs ++ ys) = joinWith sep xs ++ sep ++ joinWith sep ys := by
  induction xs with
  | nil => exact absurd rfl hx
  | cons x xs2 ih =>
      cases xs2 with
      | nil =>
          rw [List.singleton_append, joinWith_cons sep x ys hy]
          rfl
      | cons x2 xs3 =>
          rw [List.cons_append, joinWith_cons sep x ((x2 :: xs3) ++ ys) (by simp),
            ih (by simp), joinWith_cons sep x (x2 :: xs3) (by simp)]
          simp [List.append_assoc]

theorem joinWith_append_single {α : Type} (sep : List α) (xs : List (List α)) (y : List α)
    (h : xs ≠ []) : joinWith sep (xs ++ [y]) = joinWith sep xs ++ sep ++ y := by
  rw [joinWith_append sep xs [y] h (by simp)]
  rfl

theorem flatten_ne_nil {α : Type} (x : List α) (xs : List (List α)) (hx : x ≠ []) :
    (x :: xs).flatten ≠ [] := by
  simp [List.flatten_cons, hx]

theorem joinWith_hom {α : Type} (sep : List α) :
    ∀ (wss : List (List (List α))),
      (∀ ws ∈ wss, ws ≠ []) →
      (∀ ws ∈ wss, ∀ w ∈ ws, w ≠ []) →
      joinWith sep (wss.map (joinWith sep)) = joinWith sep wss.flatten := by
  intro wss
  induction wss with
  | nil => intro _ _; rfl
  | cons ws wss2 ih =>
      intro h1 h2
      cases wss2 with
      | nil => simp [joinWith]
      | cons ws2 wss3 =>
          have hws : ws ≠ [] := h1 ws (by simp)
          have hws2 : ws2 ≠ [] := h1 ws2 (by simp)
          have hw2ne : ∀ w ∈ ws2, w ≠ [] := h2 ws2 (by simp)
          have hflat : (ws2 :: wss3).flatten ≠ [] := flatten_ne_nil ws2 wss3 hws2
          rw [List.map_cons, joinWith_cons sep _ _ (by simp), ih (fun x hx => h1 x (by simp [hx]))
            (fun x hx => h2 x (by simp [hx])), ← joinWith_append sep ws _ hws hflat,
            List.flatten_cons]
          simp [List.flatten_cons]

/-! ## Splitting a joined line recovers its words -/

theorem splitWords_single (w : List Char) :
    w ≠ [] → (∀ c ∈ w, c.isWhitespace = false) → splitWords w = [w] := by
  induction w with
  | nil => intro h _; exact absurd rfl h
  | cons a w2 ih =>
      intro _ hgood
      have ha : a.isWhitespace = false := hgood a (by simp)
      rw [splitWords, if_neg (by simp [ha])]
      cases w2 with
      | nil => rfl
      | cons b w3 =>
          have hb : b.isWhitespace = false := hgood b (by simp)
          have hsp := ih (by simp) (fun c hc => hgood c (by simp [hc]))
          rw [hsp, splitCombine, if_neg (by simp [hb])]

theorem splitWords_ws_cons (t : List Char) : splitWords (' ' :: t) = splitWords t := by
  rw [splitWords, if_pos (by decide)]

theorem splitWords_word_append (w : List Char) :
    ∀ (t : List Char), w ≠ [] → (∀ c ∈ w, c.isWhitespace = false) →
      splitWords (w ++ ' ' :: t) = w :: splitWords t := by
  induction w with
  | nil => intro t h _; exact absurd rfl h
  | cons a w2 ih =>
      intro t _ hgood
      have ha : a.isWhitespace = false := hgood a (by simp)
      cases w2 with
      | nil =>
          have hrw : ([a] : List Char) ++ ' ' :: t = a :: ' ' :: t := by simp
          rw [hrw, splitWords, if_neg (by simp [ha]), splitWords_ws_cons]
          cases hsw : splitWords t with
          | nil => rw [splitCombine]
          | cons w ws => rw [splitCombine, if_pos (by decide)]
      | cons b w3 =>
          have hb : b.isWhitespace = false := hgood b (by simp)
          have ihh := ih t (by simp) (fun c hc => hgood c (by simp [hc]))
          have hrw : (a :: b :: w3) ++ ' ' :: t = a :: (b :: (w3 ++ ' ' :: t)) := by simp
          rw [hrw, splitWords, if_neg (by simp [ha])]
          have hrw2 : splitWords (b :: (w3 ++ ' ' :: t)) = (b :: w3) :: splitWords t := by
            have : b :: (w3 ++ ' ' :: t) = (b :: w3) ++ ' ' :: t := by simp
            rw [this, ihh]
          rw [hrw2, splitCombine, if_neg (by simp [hb])]

theorem splitWords_joinWith (ws : List (List Char)) :
    (∀ w ∈ ws, w ≠ [] ∧ ∀ c ∈ w, c.isWhitespace = false) →
    splitWords (joinWith [' '] ws) = ws := by
  induction ws with
  | nil => intro _; rfl
  | cons w ws2 ih =>
      intro h
      cases ws2 with
      | nil => exact splitWords_single w (h w (by simp)).1 (h w (by simp)).2
      | cons w2 ws3 =>
          rw [joinWith_cons _ _ _ (by simp)]
          have hrw : w ++ [' '] ++ joinWith [' '] (w2 :: ws3) =
              w ++ ' ' :: joinWith [' '] (w2 :: ws3) := by simp
          rw [hrw, splitWords_word_append w _ (h w (by simp)).1 (h w (by simp)).2,
            ih (fun x hx => h x (by simp [hx]))]

/-! ## The word-highlight slice and offset recovery -/

theorem maskSlice_length (mask : List Bool) (s : ℕ) (w : List Char) :
    (maskSlice mask s w).length = w.length := by
  simp [maskSlice]

theorem maskSlice_ne_nil (mask : List Bool) (s : ℕ) (w : List Char) (hw : w ≠ []) :
    maskSlice mask s w ≠ [] := by
  intro hc
  have := congrArg List.length hc
  rw [maskSlice_length] at this
  exact hw (List.length_eq_zero.mp this)

theorem wordHl_eq_maskSlice (mask : List Bool) (s : ℕ) (w : List Char) :
    (intRange (s : Int) ((s : Int) + w.length)).map
      (fun i => if i < (mask.length : Int) then pyIndex mask i else false) =
      maskSlice mask s w := by
  rw [intRange, maskSlice]
  have harg : ((s : Int) + (w.length : Int) - (s : Int)).toNat = w.length := by omega
  rw [harg, List.map_map]
  apply List.map_congr_left
  intro k hk
  simp only [Function.comp_apply]
  by_cases hlt : s + k < mask.length
  · rw [if_pos (by exact_mod_cast hlt), if_pos hlt, pyIndex, if_pos (by positivity)]
    congr 1
  · rw [if_neg (by exact_mod_cast hlt), if_neg hlt]

theorem pyFind_of_chain (text : List Char) (p s : ℕ) (w : List Char)
    (ts : List (Nat × List Char)) (h : chain text p ((s, w) :: ts)) :
    pyFind text w (p : Int) = (s : Int) := by
  obtain ⟨h1, h2, h3, h4, h5, h6⟩ := h
  have hps : pyStart text (p : Int) = p := by
    rw [pyStart, if_neg (by omega)]
    omega
  have hfind : strFind w (text.drop p) = some (s - p) := by
    apply strFind_of
    · rw [List.drop_drop]
      have hr : p + (s - p) = s := by omega
      rw [hr]
      exact h5
    · intro t ht
      rw [List.drop_drop]
      obtain ⟨hjlen, hjws⟩ := h2 (p + t) (by omega) (by omega)
      obtain ⟨c, w2, rfl⟩ : ∃ c w2, w = c :: w2 := by
        cases w with
        | nil => exact absurd rfl h3
        | cons c w2 => exact ⟨c, w2, rfl⟩
      have hcws : c.isWhitespace = false := h4 c (by simp)
      rw [List.drop_eq_getElem_cons hjlen]
      have hgd : text.getD (p + t) 'a' = text[p + t] := List.getD_eq_getElem text 'a' hjlen
      have hne : (c == text[p + t]) = false := by
        rw [beq_eq_false_iff_ne]
        intro hc
        rw [hgd] at hjws
        rw [← hc, hcws] at hjws
        exact absurd hjws (by simp)
      simp [begins, hne]
  rw [pyFind, hps, hfind]
  show (p : Int) + ((s - p : ℕ) : Int) = (s : Int)
  omega

/-! ## Rendering a group of positioned words to a line -/

theorem renderGroup_singleton (mask : List Bool) (s : ℕ) (w : List Char) :
    renderGroup mask [(s, w)] = (w, maskSlice mask s w) := rfl

theorem renderGroup_fst (mask : List Bool) (g : List (Nat × List Char)) :
    (renderGroup mask g).1 = joinWith [' '] (g.map Prod.snd) := rfl

theorem renderGroup_snd (mask : List Bool) (g : List (Nat × List Char)) :
    (renderGroup mask g).2 = joinWith [false] (g.map (fun sw => maskSlice mask sw.1 sw.2)) := rfl

theorem renderGroup_snd_ne_nil (mask : List Bool) (g0 : Nat × List Char)
    (gtail : List (Nat × List Char)) (h : g0.2 ≠ []) :
    (renderGroup mask (g0 :: gtail)).2 ≠ [] := by
  rw [renderGroup_snd, List.map_cons]
  exact joinWith_ne_nil _ _ _ (maskSlice_ne_nil mask g0.1 g0.2 h)

theorem renderGroup_append_single (mask : List Bool) (g : List (Nat × List Char))
    (s : ℕ) (w : List Char) (hg : g ≠ []) :
    renderGroup mask (g ++ [(s, w)]) =
      ((renderGroup mask g).1 ++ [' '] ++ w,
       (renderGroup mask g).2 ++ [false] ++ maskSlice mask s w) := by
  rw [renderGroup, renderGroup_fst, renderGroup_snd]
  have hm1 : g.map Prod.snd ≠ [] := by
    cases g with
    | nil => exact absurd rfl hg
    | cons a l => simp
  have hm2 : g.map (fun sw => maskSlice mask sw.1 sw.2) ≠ [] := by
    cases g with
    | nil => exact absurd rfl hg
    | cons a l => simp
  rw [List.map_append, List.map_append,
    show List.map Prod.snd [(s, w)] = [w] from rfl,
    show List.map (fun sw => maskSlice mask sw.1 sw.2) [(s, w)] = [maskSlice mask s w] from rfl,
    joinWith_append_single _ _ _ hm1, joinWith_append_single _ _ _ hm2]

/-! ## The wrap loop invariant -/

theorem wrap_fold_inv (text : List Char) (mask : List Bool) (maxW : ℚ) (F : Fonts) :
    ∀ (ts : List (Nat × List Char)) (p : ℕ) (st : WrapSt) (gcur : List (Nat × List Char)),
      chain text p ts →
      st.pos = (p : Int) →
      st.curWords = gcur.map Prod.snd →
      st.curHl = (renderGroup mask gcur).2 →
      (∀ sw ∈ gcur, sw.2 ≠ []) →
      (2 ≤ gcur.length →
        calculate_real_width (renderGroup mask gcur).1 (renderGroup mask gcur).2 F *
          (115 / 100) ≤ maxW) →
      ∃ gs : List (List (Nat × List Char)),
        wrapFinalize (List.foldl (wrapStep text mask maxW F) st (ts.map Prod.snd)) =
          st.lines ++ gs.map (renderGroup mask) ∧
        gs.flatten = gcur ++ ts ∧
        (∀ g ∈ gs, g ≠ []) ∧
        (∀ g ∈ gs, 2 ≤ g.length →
          calculate_real_width (renderGroup mask g).1 (renderGroup mask g).2 F *
            (115 / 100) ≤ maxW) := by
  intro ts
  induction ts with
  | nil =>
      intro p st gcur hch hpos hcw hchl hgood hwidth
      cases gcur with
      | nil =>
          refine ⟨[], ?_, by simp, by simp, by simp⟩
          rw [List.map_nil, List.foldl_nil, wrapFinalize, hcw]
          simp
      | cons g0 gtail =>
          refine ⟨[g0 :: gtail], ?_, by simp, by simp, ?_⟩
          · rw [List.map_nil, List.foldl_nil, wrapFinalize, if_pos (by rw [hcw]; simp)]
            rw [hcw, hchl]
            rfl
          · intro g hg
            rw [List.mem_singleton] at hg
            subst hg
            exact hwidth
  | cons sw ts2 ih =>
      obtain ⟨s, w⟩ := sw
      intro p st gcur hch hpos hcw hchl hgood hwidth
      have hfind : pyFind text w (p : Int) = (s : Int) := pyFind_of_chain text p s w ts2 hch
      obtain ⟨h1, h2, h3, h4, h5, h6⟩ := hch
      have hposInt : (s : Int) + (w.length : Int) = ((s + w.length : ℕ) : Int) := by
        push_cast
        ring
      rw [List.map_cons, List.foldl_cons]
      have hstep : wrapStep text mask maxW F st w =
          (if calculate_real_width
                (if st.curWords ≠ [] then joinWith [' '] (st.curWords ++ [w]) else w)
                (if st.curWords ≠ [] then st.curHl ++ [false] ++ maskSlice mask s w
                  else maskSlice mask s w) F * (115 / 100) ≤ maxW then
            { st with
              curWords := st.curWords ++ [w]
              curHl := (if st.curHl ≠ [] then st.curHl ++ [false] else st.curHl) ++
                maskSlice mask s w
              pos := ((s + w.length : ℕ) : Int) }
          else
            { lines := st.lines ++
                (if st.curWords ≠ [] then [(joinWith [' '] st.curWords, st.curHl)] else [])
              curWords := [w]
              curHl := maskSlice mask s w
              pos := ((s + w.length : ℕ) : Int) }) := by
        rw [wrapStep, hpos, hfind, wordHl_eq_maskSlice, hposInt]
      cases gcur with
      | nil =>
          have hcwnil : st.curWords = [] := by rw [hcw]; rfl
          have hchlnil : st.curHl = [] := by rw [hchl]; rfl
          have hnext : wrapStep text mask maxW F st w =
              { lines := st.lines
                curWords := [w]
                curHl := maskSlice mask s w
                pos := ((s + w.length : ℕ) : Int) } := by
            rw [hstep, hcwnil, hchlnil]
            have e1 : (if ([] : List (List Char)) ≠ [] then joinWith [' '] ([] ++ [w]) else w) =
                w := if_neg (fun hcon => hcon rfl)
            have e2 : (if ([] : List (List Char)) ≠ [] then
                ([] : List Bool) ++ [false] ++ maskSlice mask s w else maskSlice mask s w) =
                maskSlice mask s w := if_neg (fun hcon => hcon rfl)
            have e3 : (if ([] : List Bool) ≠ [] then ([] : List Bool) ++ [false] else []) =
                ([] : List Bool) := if_neg (fun hcon => hcon rfl)
            have e4 : (if ([] : List (List Char)) ≠ [] then
                [(joinWith [' '] ([] : List (List Char)), ([] : List Bool))] else
                ([] : List (List Char × List Bool))) = [] := if_neg (fun hcon => hcon rfl)
            rw [e1, e2, e3, e4]
            split <;> simp
          rw [hnext]
          obtain ⟨gs, hfin, hflat, hne, hw2⟩ := ih (s + w.length)
            { lines := st.lines, curWords := [w], curHl := maskSlice mask s w,
              pos := ((s + w.length : ℕ) : Int) } [(s, w)] h6 rfl rfl rfl
            (by
              intro sw2 hsw2
              rw [List.mem_singleton] at hsw2
              subst hsw2
              exact h3)
            (by
              intro hle
              simp at hle)
          exact ⟨gs, hfin, by rw [hflat]; simp, hne, hw2⟩
      | cons g0 gtail =>
          have hcwne : st.curWords ≠ [] := by rw [hcw]; simp
          have hchlne : st.curHl ≠ [] := by
            rw [hchl]
            exact renderGroup_snd_ne_nil mask g0 gtail (hgood g0 (by simp))
          have hcand1 : joinWith [' '] (st.curWords ++ [w]) =
              (renderGroup mask ((g0 :: gtail) ++ [(s, w)])).1 := by
            rw [hcw, renderGroup_fst, List.map_append]
            rfl
          have hcand2 : st.curHl ++ [false] ++ maskSlice mask s w =
              (renderGroup mask ((g0 :: gtail) ++ [(s, w)])).2 := by
            rw [hchl, renderGroup_append_single mask _ s w (by simp)]
          have hstep2 : wrapStep text mask maxW F st w =
              (if calculate_real_width (joinWith [' '] (st.curWords ++ [w]))
                  (st.curHl ++ [false] ++ maskSlice mask s w) F * (115 / 100) ≤ maxW then
                { st with
                  curWords := st.curWords ++ [w]
                  curHl := st.curHl ++ [false] ++ maskSlice mask s w
                  pos := ((s + w.length : ℕ) : Int) }
              else
                { lines := st.lines ++ [(joinWith [' '] st.curWords, st.curHl)]
                  curWords := [w]
                  curHl := maskSlice mask s w
                  pos := ((s + w.length : ℕ) : Int) }) := by
            rw [hstep, if_pos hcwne, if_pos hcwne, if_pos hchlne, if_pos hcwne]
          by_cases hacc : calculate_real_width (joinWith [' '] (st.curWords ++ [w]))
              (st.curHl ++ [false] ++ maskSlice mask s w) F * (115 / 100) ≤ maxW
          · rw [hstep2, if_pos hacc]
            have hwidth2 : calculate_real_width
                (renderGroup mask ((g0 :: gtail) ++ [(s, w)])).1
                (renderGroup mask ((g0 :: gtail) ++ [(s, w)])).2 F * (115 / 100) ≤ maxW := by
              rw [← hcand1, ← hcand2]
              exact hacc
            obtain ⟨gs, hfin, hflat, hne, hw2⟩ := ih (s + w.length)
              { st with
                curWords := st.curWords ++ [w]
                curHl := st.curHl ++ [false] ++ maskSlice mask s w
                pos := ((s + w.length : ℕ) : Int) } ((g0 :: gtail) ++ [(s, w)]) h6 rfl
              (by rw [hcw]; simp)
              (by rw [hcand2])
              (by
                intro sw2 hsw2
                rcases List.mem_append.mp hsw2 with hin | hin
                · exact hgood sw2 hin
                · rw [List.mem_singleton] at hin
                  subst hin
                  exact h3)
              (fun _ => hwidth2)
            exact ⟨gs, hfin, by rw [hflat]; simp, hne, hw2⟩
          · rw [hstep2, if_neg hacc]
            have hflush : (joinWith [' '] st.curWords, st.curHl) =
                renderGroup mask (g0 :: gtail) := by
              rw [hcw, hchl]
              rfl
            obtain ⟨gs2, hfin, hflat, hne, hw2⟩ := ih (s + w.length)
              { lines := st.lines ++ [(joinWith [' '] st.curWords, st.curHl)]
                curWords := [w]
                curHl := maskSlice mask s w
                pos := ((s + w.length : ℕ) : Int) } [(s, w)] h6 rfl rfl rfl
              (by
                intro sw2 hsw2
                rw [List.mem_singleton] at hsw2
                subst hsw2
                exact h3)
              (by
                intro hle
                simp at hle)
            refine ⟨(g0 :: gtail) :: gs2, ?_, ?_, ?_, ?_⟩
            · rw [hfin, hflush, List.map_cons]
              simp [List.append_assoc]
            · rw [List.flatten_cons, hflat]
              simp
            · intro g hg
              rcases List.mem_cons.mp hg with rfl | hg2
              · simp
              · exact hne g hg2
            · intro g hg
              rcases List.mem_cons.mp hg with rfl | hg2
              · exact hwidth
              · exact hw2 g hg2

/-- Master description of the wrap engine: its output is exactly the list
of token groups chosen by the greedy loop, each group rendered by joining
its words with single spaces and joining the corresponding mask slices
(taken at the true token offsets) with a single `false` per space; groups
are non-empty, their concatenation is the token sequence of the text, and
every group of at least two words passed the width test. -/
theorem wrap_master (text : List Char) (mask : List Bool) (maxW : ℚ) (F : Fonts) :
    ∃ gs : List (List (Nat × List Char)),
      gs.flatten = tokensFrom text 0 ∧
      (∀ g ∈ gs, g ≠ []) ∧
      wrap_text_with_highlights text mask maxW F = gs.map (renderGroup mask) ∧
      (∀ g ∈ gs, ∀ sw ∈ g, sw.2 ≠ [] ∧ ∀ c ∈ sw.2, c.isWhitespace = false) ∧
      (∀ g ∈ gs, 2 ≤ g.length →
        calculate_real_width (renderGroup mask g).1 (renderGroup mask g).2 F *
          (115 / 100) ≤ maxW) := by
  have hch : chain text 0 (tokensFrom text 0) := chain_tokensFrom text text 0 (by simp)
  obtain ⟨gs, hfin, hflat, hne, hw2⟩ := wrap_fold_inv text mask maxW F (tokensFrom text 0) 0
    ⟨[], [], [], 0⟩ [] hch rfl rfl rfl (by simp) (by intro h; simp at h)
  have hflat2 : gs.flatten = tokensFrom text 0 := by simpa using hflat
  refine ⟨gs, hflat2, hne, ?_, ?_, hw2⟩
  · rw [wrap_text_with_highlights, ← tokensFrom_snd text 0]
    rw [hfin]
    simp
  · intro g hg sw hsw
    apply chain_good text (tokensFrom text 0) 0 hch
    rw [← hflat2]
    exact List.mem_flatten.mpr ⟨g, hg, hsw⟩

/-! ## Per-line shape facts (for C4) -/

theorem renderGroup_cons_fst (mask : List Bool) (s : ℕ) (w : List Char) (sw2 : Nat × List Char)
    (g3 : List (Nat × List Char)) :
    (renderGroup mask ((s, w) :: sw2 :: g3)).1 =
      w ++ [' '] ++ (renderGroup mask (sw2 :: g3)).1 := by
  rw [renderGroup_fst, renderGroup_fst, List.map_cons]
  exact joinWith_cons [' '] ((s, w).2) _ (by simp)

theorem renderGroup_cons_snd (mask : List Bool) (s : ℕ) (w : List Char) (sw2 : Nat × List Char)
    (g3 : List (Nat × List Char)) :
    (renderGroup mask ((s, w) :: sw2 :: g3)).2 =
      maskSlice mask s w ++ [false] ++ (renderGroup mask (sw2 :: g3)).2 := by
  rw [renderGroup_snd, renderGroup_snd, List.map_cons]
  exact joinWith_cons [false] _ _ (by simp)

theorem renderGroup_length (mask : List Bool) (g : List (Nat × List Char))
    (hg : ∀ sw ∈ g, sw.2 ≠ []) :
    (renderGroup mask g).2.length = (renderGroup mask g).1.length := by
  induction g with
  | nil => rfl
  | cons sw g2 ih =>
      obtain ⟨s, w⟩ := sw
      cases g2 with
      | nil =>
          rw [renderGroup_singleton]
          exact maskSlice_length mask s w
      | cons sw2 g3 =>
          rw [renderGroup_cons_fst, renderGroup_cons_snd]
          simp only [List.length_append, maskSlice_length]
          rw [ih (fun x hx => hg x (by simp [hx]))]
          simp

theorem char_of_getD_mem (w : List Char) (i : ℕ) (c : Char) (d : Char)
    (hne : w.getD i d = c) (hd : c ≠ d) : c ∈ w := by
  by_cases hlt : i < w.length
  · rw [List.getD_eq_getElem?_getD, List.getElem?_eq_getElem hlt] at hne
    simp only [Option.getD_some] at hne
    rw [← hne]
    exact List.getElem_mem hlt
  · rw [List.getD_eq_getElem?_getD, List.getElem?_eq_none (by omega)] at hne
    simp only [Option.getD_none] at hne
    exact absurd hne.symm hd

theorem renderGroup_space (mask : List Bool) (g : List (Nat × List Char))
    (hg : ∀ sw ∈ g, sw.2 ≠ [] ∧ ∀ c ∈ sw.2, c.isWhitespace = false) :
    ∀ i, (renderGroup mask g).1.getD i 'a' = ' ' → (renderGroup mask g).2.getD i true = false := by
  induction g with
  | nil =>
      intro i hi
      rw [show (renderGroup mask []).1 = [] from rfl] at hi
      simp at hi
  | cons sw g2 ih =>
      obtain ⟨s, w⟩ := sw
      have hw : ∀ c ∈ w, c.isWhitespace = false := (hg (s, w) (by simp)).2
      cases g2 with
      | nil =>
          intro i hi
          rw [renderGroup_singleton] at hi
          have hmem : (' ' : Char) ∈ w := char_of_getD_mem w i ' ' 'a' hi (by decide)
          have := hw ' ' hmem
          simp at this
      | cons sw2 g3 =>
          intro i hi
          rw [renderGroup_cons_fst] at hi
          rw [renderGroup_cons_snd]
          rcases Nat.lt_trichotomy i w.length with hlt | heq | hgt
          · exfalso
            rw [List.getD_eq_getElem?_getD, List.append_assoc,
              List.getElem?_append_left (by omega)] at hi
            have hmem : (' ' : Char) ∈ w := by
              apply char_of_getD_mem w i ' ' 'a' ?_ (by decide)
              rw [List.getD_eq_getElem?_getD]
              exact hi
            have := hw ' ' hmem
            simp at this
          · subst heq
            rw [List.getD_eq_getElem?_getD, List.append_assoc,
              List.getElem?_append_right (by rw [maskSlice_length]), maskSlice_length]
            simp
          · rw [List.getD_eq_getElem?_getD, List.append_assoc,
              List.getElem?_append_right (by omega)] at hi
            rw [List.getD_eq_getElem?_getD, List.append_assoc,
              List.getElem?_append_right (by rw [maskSlice_length]; omega), maskSlice_length]
            rw [show ([' '] ++ (renderGroup mask (sw2 :: g3)).1) =
              ' ' :: (renderGroup mask (sw2 :: g3)).1 from rfl] at hi
            rw [show ([false] ++ (renderGroup mask (sw2 :: g3)).2) =
              false :: (renderGroup mask (sw2 :: g3)).2 from rfl]
            obtain ⟨k, hk⟩ : ∃ k, i - w.length = k + 1 := ⟨i - w.length - 1, by omega⟩
            rw [hk] at hi ⊢
            rw [List.getElem?_cons_succ] at hi ⊢
            have hres := ih (fun x hx => hg x (by simp [hx])) k
            rw [List.getD_eq_getElem?_getD, List.getD_eq_getElem?_getD] at hres
            exact hres hi

/-! ## Concrete wrap evaluations -/

theorem wrap_eval_unit_reject :
    wrap_text_with_highlights ['a', 'b'] [] 1 ⟨fun _ => 10, fun _ => 10⟩ =
      [(['a', 'b'], [false, false])] := by
  simp +decide only [wrap_text_with_highlights, splitWords, splitCombine, wrapStep,
    wrapFinalize, pyFind, pyStart, strFind, begins, intRange, pyIndex,
    calculate_real_width, calcWidthAux, joinWith, List.foldl]
  norm_num [calcWidthAux, joinWith, wrapFinalize, strFind, begins, pyIndex, List.replicate,
    List.cons_append, List.nil_append, List.singleton_append, List.append_nil]

theorem wrap_eval_two_low :
    wrap_text_with_highlights ['a', 'a', ' ', 'b', 'b'] (List.replicate 5 false)
      ((13 / 2) * (85 / 100)) unitFonts =
      [(['a', 'a'], [false, false]), (['b', 'b'], [false, false])] := by
  simp +decide only [wrap_text_with_highlights, splitWords, splitCombine, wrapStep,
    wrapFinalize, pyFind, pyStart, strFind, begins, intRange, pyIndex,
    calculate_real_width, calcWidthAux, joinWith, unitFonts, List.foldl]
  norm_num [calcWidthAux, joinWith, wrapFinalize, strFind, begins, pyIndex, unitFonts,
    List.replicate, List.cons_append, List.nil_append, List.singleton_append,
    List.append_nil]
  decide

theorem wrap_eval_two_high :
    wrap_text_with_highlights ['a', 'a', ' ', 'b', 'b'] (List.replicate 5 false)
      ((13 / 2) * (90 / 100)) unitFonts =
      [(['a', 'a', ' ', 'b', 'b'], [false, false, false, false, false])] := by
  simp +decide only [wrap_text_with_highlights, splitWords, splitCombine, wrapStep,
    wrapFinalize, pyFind, pyStart, strFind, begins, intRange, pyIndex,
    calculate_real_width, calcWidthAux, joinWith, unitFonts, List.foldl]
  norm_num [calcWidthAux, joinWith, wrapFinalize, strFind, begins, pyIndex, unitFonts,
    List.replicate, List.cons_append, List.nil_append, List.singleton_append,
    List.append_nil]
  decide

/-! ## Claims about the wrap engine -/

/-- Claim C2: joining the texts of all wrapped lines with single spaces
equals the single-space join of the headline's whitespace-split word
sequence, and the concatenation of the lines' word sequences is exactly
the headline's word sequence — no word is split, dropped, duplicated or
reordered. -/
theorem wrap_word_integrity (text : List Char) (mask : List Bool) (maxW : ℚ) (F : Fonts) :
    joinWith [' '] ((wrap_text_with_highlights text mask maxW F).map Prod.fst) =
      joinWith [' '] (splitWords text) ∧
    ((wrap_text_with_highlights text mask maxW F).map (fun l => splitWords l.1)).flatten =
      splitWords text := by
  obtain ⟨gs, hflat, hne, hout, hgood, _⟩ := wrap_master text mask maxW F
  have hsplit : splitWords text = (gs.map (List.map Prod.snd)).flatten := by
    rw [← tokensFrom_snd text 0, ← hflat, List.map_flatten]
  have hne2 : ∀ ws ∈ gs.map (List.map Prod.snd), ws ≠ [] := by
    intro ws hws
    obtain ⟨g, hgmem, rfl⟩ := List.mem_map.mp hws
    cases g with
    | nil => exact absurd rfl (hne [] hgmem)
    | cons a l => simp
  have hwne : ∀ ws ∈ gs.map (List.map Prod.snd), ∀ w ∈ ws, w ≠ [] := by
    intro ws hws w hw
    obtain ⟨g, hgmem, rfl⟩ := List.mem_map.mp hws
    obtain ⟨sw, hswm, rfl⟩ := List.mem_map.mp hw
    exact (hgood g hgmem sw hswm).1
  constructor
  · rw [hout, List.map_map]
    have hmapeq : gs.map (Prod.fst ∘ renderGroup mask) =
        (gs.map (List.map Prod.snd)).map (joinWith [' ']) := by
      rw [List.map_map]
      apply List.map_congr_left
      intro g _
      rfl
    rw [hmapeq, hsplit, joinWith_hom [' '] _ hne2 hwne]
  · rw [hout, List.map_map]
    have hmapeq : gs.map ((fun l => splitWords l.1) ∘ renderGroup mask) =
        gs.map (List.map Prod.snd) := by
      apply List.map_congr_left
      intro g hg
      show splitWords (joinWith [' '] (g.map Prod.snd)) = g.map Prod.snd
      apply splitWords_joinWith
      intro w hw
      obtain ⟨sw, hswm, rfl⟩ := List.mem_map.mp hw
      exact hgood g hg sw hswm
    rw [hmapeq, ← hsplit]

/-- Claim C3: every wrapped line with at least two words satisfies
`measured_width × 1.15 ≤ max_width`; and a line consisting of exactly one
word may exceed the budget — such an overflowing line is produced, not
rejected. -/
theorem wrap_width_bound (text : List Char) (mask : List Bool) (maxW : ℚ) (F : Fonts) :
    (∀ l ∈ wrap_text_with_highlights text mask maxW F,
      2 ≤ (splitWords l.1).length →
      calculate_real_width l.1 l.2 F * (115 / 100) ≤ maxW) ∧
    ∃ (text2 : List Char) (mask2 : List Bool) (maxW2 : ℚ) (F2 : Fonts)
      (l : List Char × List Bool),
      l ∈ wrap_text_with_highlights text2 mask2 maxW2 F2 ∧
      (splitWords l.1).length = 1 ∧ maxW2 < calculate_real_width l.1 l.2 F2 := by
  constructor
  · intro l hl hlen
    obtain ⟨gs, hflat, hne, hout, hgood, hw2⟩ := wrap_master text mask maxW F
    rw [hout] at hl
    obtain ⟨g, hgmem, rfl⟩ := List.mem_map.mp hl
    have hsp : splitWords (renderGroup mask g).1 = g.map Prod.snd := by
      apply splitWords_joinWith
      intro w hw
      obtain ⟨sw, hswm, rfl⟩ := List.mem_map.mp hw
      exact hgood g hgmem sw hswm
    rw [renderGroup_fst] at hsp
    rw [renderGroup_fst, hsp, List.length_map] at hlen
    exact hw2 g hgmem hlen
  · refine ⟨['a', 'b'], [], 1, ⟨fun _ => 10, fun _ => 10⟩, (['a', 'b'], [false, false]),
      ?_, by decide, ?_⟩
    · rw [wrap_eval_unit_reject]
      simp
    · norm_num [calculate_real_width, calcWidthAux]

/-- Witness for C3 at a concrete two-word wrap: the produced two-word line
respects the width budget. -/
theorem wrap_width_bound_witness :
    calculate_real_width (['a', 'a', ' ', 'b', 'b'] : List Char)
      [false, false, false, false, false] unitFonts * (115 / 100) ≤ (13 / 2) * (90 / 100) :=
  (wrap_width_bound ['a', 'a', ' ', 'b', 'b'] (List.replicate 5 false)
    ((13 / 2) * (90 / 100)) unitFonts).1
    (['a', 'a', ' ', 'b', 'b'], [false, false, false, false, false])
    (by rw [wrap_eval_two_high]; simp) (by decide)

/-- Claim C4: every wrapped line has as many highlight flags as
characters; the flag at every joining-space position is `false`; and the
output is exactly the rendering of consecutive token groups, each word's
flags being the mask entries at the word's true absolute offsets in the
headline (`tokensFrom`), so offsets are recovered correctly even with
repeated words. -/
theorem wrap_line_invariants (text : List Char) (mask : List Bool) (maxW : ℚ) (F : Fonts) :
    (∀ l ∈ wrap_text_with_highlights text mask maxW F,
      l.2.length = l.1.length ∧
      ∀ i, l.1.getD i 'a' = ' ' → l.2.getD i true = false) ∧
    ∃ gs : List (List (Nat × List Char)),
      gs.flatten = tokensFrom text 0 ∧
      (∀ g ∈ gs, g ≠ []) ∧
      wrap_text_with_highlights text mask maxW F = gs.map (renderGroup mask) := by
  obtain ⟨gs, hflat, hne, hout, hgood, _⟩ := wrap_master text mask maxW F
  constructor
  · intro l hl
    rw [hout] at hl
    obtain ⟨g, hgmem, rfl⟩ := List.mem_map.mp hl
    exact ⟨renderGroup_length mask g (fun sw hsw => (hgood g hgmem sw hsw).1),
      renderGroup_space mask g (fun sw hsw => hgood g hgmem sw hsw)⟩
  · exact ⟨gs, hflat, hne, hout⟩

/-- Witness for C4 at a concrete two-word wrap. -/
theorem wrap_line_invariants_witness :
    ((['a', 'a'], [false, false]) : List Char × List Bool).2.length =
      ((['a', 'a'], [false, false]) : List Char × List Bool).1.length ∧
    ∀ i, ((['a', 'a'], [false, false]) : List Char × List Bool).1.getD i 'a' = ' ' →
      ((['a', 'a'], [false, false]) : List Char × List Bool).2.getD i true = false :=
  (wrap_line_invariants ['a', 'a', ' ', 'b', 'b'] (List.replicate 5 false)
    ((13 / 2) * (85 / 100)) unitFonts).1 (['a', 'a'], [false, false])
    (by rw [wrap_eval_two_low]; simp)

/-- Claim C8 (code bug): the comparison `frm == "instragram"` in
`src/imgeditor.py` misspells `"instagram"`, so the Instagram path gets
wrap factor 0.85 there while `generate_image_api.py` uses 0.90 — contrary
to the adjacent comment announcing 90% for Instagram — and the two
variants can produce different wrapped lines for equal inputs. -/
theorem wrap_factor_typo :
    wrap_factor_imgeditor "instagram" = 85 / 100 ∧
    wrap_factor_api true = 90 / 100 ∧
    wrap_factor_imgeditor "instagram" ≠ wrap_factor_api true ∧
    wrap_text_with_highlights ['a', 'a', ' ', 'b', 'b'] (List.replicate 5 false)
        ((13 / 2) * wrap_factor_imgeditor "instagram") unitFonts ≠
      wrap_text_with_highlights ['a', 'a', ' ', 'b', 'b'] (List.replicate 5 false)
        ((13 / 2) * wrap_factor_api true) unitFonts := by
  have h1 : wrap_factor_imgeditor "instagram" = 85 / 100 := by
    rw [wrap_factor_imgeditor, if_neg (by decide)]
  have h2 : wrap_factor_api true = 90 / 100 := by
    rw [wrap_factor_api, if_pos rfl]
  refine ⟨h1, h2, ?_, ?_⟩
  · rw [h1, h2]
    norm_num
  · rw [h1, h2, wrap_eval_two_low, wrap_eval_two_high]
    simp
